import Mathlib

/-!
Verification of the sibling-field path resolver, upload-value normalizer,
locale selector and tabular normalizer of the dato-excel-upload plugin.

The plugin operates on the host-provided form-value tree (`formValues`), a
duck-typed nest of JavaScript objects, arrays and scalars.  We embed the
dynamic JavaScript values the plugin manipulates as the inductive type
`JVal` below, and translate each plugin function over that embedding:
  - `pickAnyLocaleValue`, `toStringValue`, `normalizeUploadLike`,
    `normalizeSheetRowsStrings`, `normalizeAoA` and the blank-row filter of
    `aoaFromWorksheet` from src/src/main.tsx;
  - `splitPath`, `parentPath`, `getAtPath`, `findBlockContainerWithCurrentField`
    (fast path and deep-walk fallback), `findFieldDef`, `resolveSiblingPathInBlock`
    and `getSiblingFileFromBlock` from src/unnamed/part_000;
  - the effect trace of `writePayload`, `setSiblingInBlock` and the
    `importFromBlock` action of src/src/main.tsx, with the outcomes of the
    external awaits (CMA metadata call, HTTP fetch, spreadsheet parse)
    supplied as parameters.

Modelling notes, applied consistently below:
  - JavaScript `null` and `undefined` are distinct values (`vNull`, `vUndef`);
    `NaN` is the distinguished number `vNaN`; other numbers are modelled as
    exact rationals (no theorem below depends on float rounding or on the
    exact decimal rendering of a number).
  - Objects are entry lists in insertion order with pairwise-distinct keys
    (JavaScript objects cannot hold a key twice); property reads take the
    first matching entry.
  - Property access (`jsGet`) and `hasOwnProperty` (`hasOwnProp`) cover plain
    object keys and canonical array indices; exotic host behaviours (string
    character indexing, `length`, prototype chains) are not exercised by the
    plugin and are modelled as absent properties.
  - Every translated function is total, so the non-throwing claims are
    witnessed by the functions returning `Option`/plain values rather than
    raising.
-/

/-- A JavaScript runtime value as the plugin sees it: the record value tree,
field values, upload references and payloads are all `JVal`s. -/
inductive JVal where
  | vNull
  | vUndef
  | vBool (b : Bool)
  | vNum (q : Rat)
  | vNaN
  | vStr (s : String)
  | vArr (elems : List JVal)
  | vObj (entries : List (String × JVal))
deriving Repr

open JVal

mutual
/-- All nodes of a value tree in depth-first pre-order: the node itself, then
the subvalues of its children (array elements in order, object entries in
insertion order).  This is the set of nodes the deep-walk fallback of
`findBlockContainerWithCurrentField` can visit. -/
def subvalues : JVal → List JVal
  | vArr xs => vArr xs :: subvaluesList xs
  | vObj kvs => vObj kvs :: subvaluesObj kvs
  | v => [v]
/-- Subvalues of each element of an array, concatenated in order. -/
def subvaluesList : List JVal → List JVal
  | [] => []
  | x :: xs => subvalues x ++ subvaluesList xs
/-- Subvalues of each entry value of an object, concatenated in order. -/
def subvaluesObj : List (String × JVal) → List JVal
  | [] => []
  | (_, v) :: kvs => subvalues v ++ subvaluesObj kvs
end

mutual
/-- Structural equality test on `JVal`, used only to equip `JVal` with
decidable equality. -/
def jeq : JVal → JVal → Bool
  | vNull, vNull => true
  | vUndef, vUndef => true
  | vBool a, vBool b => decide (a = b)
  | vNum a, vNum b => decide (a = b)
  | vNaN, vNaN => true
  | vStr a, vStr b => decide (a = b)
  | vArr xs, vArr ys => jeqArr xs ys
  | vObj xs, vObj ys => jeqObj xs ys
  | _, _ => false
/-- Pointwise `jeq` on element lists. -/
def jeqArr : List JVal → List JVal → Bool
  | [], [] => true
  | x :: xs, y :: ys => jeq x y && jeqArr xs ys
  | _, _ => false
/-- Pointwise `jeq` on entry lists. -/
def jeqObj : List (String × JVal) → List (String × JVal) → Bool
  | [], [] => true
  | (k, v) :: xs, (k', v') :: ys => k == k' && jeq v v' && jeqObj xs ys
  | _, _ => false
end

theorem sizeOf_vArr_mem {x : JVal} {xs : List JVal} (h : x ∈ xs) :
    sizeOf x < sizeOf (vArr xs) := by
  have := List.sizeOf_lt_of_mem h
  simp only [vArr.sizeOf_spec]
  omega

theorem sizeOf_vObj_mem {kv : String × JVal} {kvs : List (String × JVal)} (h : kv ∈ kvs) :
    sizeOf kv.2 < sizeOf (vObj kvs) := by
  have h1 : sizeOf kv < sizeOf kvs := List.sizeOf_lt_of_mem h
  have h2 : sizeOf kv.2 < sizeOf kv := by
    obtain ⟨a, b⟩ := kv
    simp only [Prod.mk.sizeOf_spec]
    omega
  simp only [vObj.sizeOf_spec]
  omega

/-- Induction principle for `JVal` that hands the inductive hypothesis to
every array element and every object entry value. -/
def JVal.myInd {motive : JVal → Prop}
    (hNull : motive vNull) (hUndef : motive vUndef)
    (hBool : ∀ b, motive (vBool b)) (hNum : ∀ q, motive (vNum q))
    (hNaN : motive vNaN) (hStr : ∀ s, motive (vStr s))
    (hArr : ∀ xs, (∀ x ∈ xs, motive x) → motive (vArr xs))
    (hObj : ∀ kvs, (∀ kv ∈ kvs, motive kv.2) → motive (vObj kvs)) :
    ∀ v, motive v
  | vNull => hNull
  | vUndef => hUndef
  | vBool b => hBool b
  | vNum q => hNum q
  | vNaN => hNaN
  | vStr s => hStr s
  | vArr xs => hArr xs (fun x _ =>
      JVal.myInd hNull hUndef hBool hNum hNaN hStr hArr hObj x)
  | vObj kvs => hObj kvs (fun kv _ =>
      JVal.myInd hNull hUndef hBool hNum hNaN hStr hArr hObj kv.2)
termination_by v => sizeOf v
decreasing_by
  · exact sizeOf_vArr_mem (by assumption)
  · exact sizeOf_vObj_mem (by assumption)

theorem jeq_refl : ∀ a, jeq a a = true := by
  intro a
  induction a using JVal.myInd with
  | hArr xs ih =>
    show jeqArr xs xs = true
    induction xs with
    | nil => rfl
    | cons x xs ihx =>
      show (jeq x x && jeqArr xs xs) = true
      simp only [Bool.and_eq_true]
      exact ⟨ih x (by simp), ihx (fun y hy => ih y (by simp [hy]))⟩
  | hObj kvs ih =>
    show jeqObj kvs kvs = true
    induction kvs with
    | nil => rfl
    | cons kv kvs ihk =>
      obtain ⟨k, v⟩ := kv
      show (k == k && jeq v v && jeqObj kvs kvs) = true
      simp only [Bool.and_eq_true, beq_self_eq_true, true_and]
      exact ⟨ih (k, v) (by simp), ihk (fun y hy => ih y (by simp [hy]))⟩
  | hBool b => exact decide_eq_true rfl
  | hNum q => exact decide_eq_true rfl
  | hStr s => exact decide_eq_true rfl
  | _ => rfl

theorem jeq_eq : ∀ a b, jeq a b = true → a = b := by
  intro a
  induction a using JVal.myInd with
  | hNull => intro b h; cases b <;> first | rfl | exact Bool.noConfusion h
  | hUndef => intro b h; cases b <;> first | rfl | exact Bool.noConfusion h
  | hNaN => intro b h; cases b <;> first | rfl | exact Bool.noConfusion h
  | hBool a =>
    intro b h
    cases b <;> first
      | exact congrArg vBool (of_decide_eq_true h)
      | exact Bool.noConfusion h
  | hNum a =>
    intro b h
    cases b <;> first
      | exact congrArg vNum (of_decide_eq_true h)
      | exact Bool.noConfusion h
  | hStr a =>
    intro b h
    cases b <;> first
      | exact congrArg vStr (of_decide_eq_true h)
      | exact Bool.noConfusion h
  | hArr xs ih =>
    intro b h
    cases b <;> try exact Bool.noConfusion h
    case vArr ys =>
    have hl : ∀ zs ws, (∀ z ∈ zs, ∀ w, jeq z w = true → z = w) →
        jeqArr zs ws = true → zs = ws := by
      intro zs
      induction zs with
      | nil =>
        intro ws _ hw
        cases ws with
        | nil => rfl
        | cons w ws => exact Bool.noConfusion hw
      | cons z zs ihz =>
        intro ws hz hw
        cases ws with
        | nil => exact Bool.noConfusion hw
        | cons w ws =>
          have hw' : (jeq z w && jeqArr zs ws) = true := hw
          simp only [Bool.and_eq_true] at hw'
          have e1 := hz z (by simp) w hw'.1
          have e2 := ihz ws (fun u hu => hz u (by simp [hu])) hw'.2
          rw [e1, e2]
    exact congrArg vArr (hl xs ys ih h)
  | hObj kvs ih =>
    intro b h
    cases b <;> try exact Bool.noConfusion h
    case vObj ys =>
    have hl : ∀ zs ws, (∀ z ∈ zs, ∀ w, jeq z.2 w = true → z.2 = w) →
        jeqObj zs ws = true → zs = ws := by
      intro zs
      induction zs with
      | nil =>
        intro ws _ hw
        cases ws with
        | nil => rfl
        | cons w ws => obtain ⟨wk, wv⟩ := w; exact Bool.noConfusion hw
      | cons z zs ihz =>
        intro ws hz hw
        obtain ⟨zk, zv⟩ := z
        cases ws with
        | nil => exact Bool.noConfusion hw
        | cons w ws =>
          obtain ⟨wk, wv⟩ := w
          have hw' : (zk == wk && jeq zv wv && jeqObj zs ws) = true := hw
          simp only [Bool.and_eq_true] at hw'
          have ek : zk = wk := by
            have := hw'.1.1
            exact of_decide_eq_true (by simpa using this)
          have ev : zv = wv := hz (zk, zv) (by simp) wv hw'.1.2
          have e2 := ihz ws (fun u hu => hz u (by simp [hu])) hw'.2
          rw [ek, ev, e2]
    exact congrArg vObj (hl kvs ys ih h)

instance : DecidableEq JVal := fun a b =>
  if h : jeq a b = true then isTrue (jeq_eq a b h)
  else isFalse (fun he => h (he ▸ jeq_refl a))

/-! ### JavaScript value semantics -/

/-- JavaScript truthiness of a value: `null`, `undefined`, `false`, `0`,
`NaN` and the empty string are falsy, everything else is truthy. -/
def truthy : JVal → Bool
  | vNull => false
  | vUndef => false
  | vBool b => b
  | vNum q => decide (q ≠ 0)
  | vNaN => false
  | vStr s => decide (s ≠ "")
  | vArr _ => true
  | vObj _ => true

/-- Nullish coalescing `a ?? b`: `b` exactly when `a` is `null` or `undefined`. -/
def nullish (a b : JVal) : JVal :=
  match a with
  | vNull => b
  | vUndef => b
  | v => v

/-- Property read `v[k]`: first matching object entry, or the array element at
the canonical index spelled by `k`; `undefined` otherwise. -/
def jsGet (v : JVal) (k : String) : JVal :=
  match v with
  | vObj kvs =>
    match kvs.find? (fun kv => kv.1 == k) with
    | some kv => kv.2
    | none => vUndef
  | vArr xs =>
    match xs.enum.find? (fun p => Nat.repr p.1 == k) with
    | some p => p.2
    | none => vUndef
  | _ => vUndef

/-- Own-property test `Object.prototype.hasOwnProperty.call(v, k)` for object
keys and canonical array indices. -/
def hasOwnProp (v : JVal) (k : String) : Bool :=
  match v with
  | vObj kvs => kvs.any (fun kv => kv.1 == k)
  | vArr xs => xs.enum.any (fun p => Nat.repr p.1 == k)
  | _ => false

mutual
/-- JavaScript generic string conversion `String(v)`.  The decimal rendering
of a finite number is modelled by the rational `toString`; no theorem below
depends on that rendering. -/
def jsToString : JVal → String
  | vNull => "null"
  | vUndef => "undefined"
  | vBool b => if b then "true" else "false"
  | vNum q => toString q
  | vNaN => "NaN"
  | vStr s => s
  | vArr xs => String.intercalate "," (jsToStringList xs)
  | vObj _ => "[object Object]"
/-- Elements rendered for `Array.prototype.join`, where `null` and
`undefined` render as the empty string. -/
def jsToStringList : List JVal → List String
  | [] => []
  | vNull :: xs => "" :: jsToStringList xs
  | vUndef :: xs => "" :: jsToStringList xs
  | x :: xs => jsToString x :: jsToStringList xs
end


/-! ### Kernel-computable string primitives

The byte-position-based core implementations of `startsWith`, `trim`,
`splitOn` and `contains` do not reduce inside the kernel, so the same
operations are defined here over the character list of the string; each models
the JavaScript string method named in its comment. -/

/-- `s.startsWith(p)` -/
def jsStartsWith (s p : String) : Bool :=
  p.data.isPrefixOf s.data

/-- `s.trim()` (JavaScript trims Unicode whitespace; `Char.isWhitespace`
covers the characters the plugin can meet in spreadsheet cells). -/
def jsTrim (s : String) : String :=
  String.mk (((s.data.dropWhile Char.isWhitespace).reverse.dropWhile Char.isWhitespace).reverse)

/-- `s.includes(c)` for a single character. -/
def jsContainsChar (s : String) (c : Char) : Bool :=
  s.data.contains c

/-! ### Host-supplied data model -/

/-- A field descriptor as supplied by the host in `ctx.fields` / `ctx.field`.
The code reads `f.apiKey ?? f.attributes?.api_key` and
`f.localized ?? f.attributes?.localized`, so both spellings are kept. -/
structure FieldDef where
  id : String
  apiKey : Option String
  attrApiKey : Option String
  localized : Option Bool
  attrLocalized : Option Bool
deriving Repr, DecidableEq

/-- The machine name of a field: `f.apiKey ?? f.attributes?.api_key`. -/
def fdApiKey (f : FieldDef) : Option String :=
  match f.apiKey with
  | some a => some a
  | none => f.attrApiKey

/-- `Boolean(d?.localized ?? d?.attributes?.localized)` (from
`isFieldLocalized` in src/unnamed/part_000 lines 141-143). -/
def isFieldLocalized (d : FieldDef) : Bool :=
  match d.localized with
  | some b => b
  | none => (d.attrLocalized).getD false

/-- The slice of the render context the resolver reads: the form-value tree,
the edited field path, the active locale (absent modelled as `none`), the
edited field descriptor and the id-keyed field-descriptor map in insertion
order. -/
structure Ctx where
  formValues : JVal
  fieldPath : String
  locale : Option String
  field : FieldDef
  fields : List (String × FieldDef)
deriving Repr

/-- Truthiness of `ctx.locale` (a missing or empty locale is falsy). -/
def localeTruthy : Option String → Bool
  | some l => decide (l ≠ "")
  | none => false

/-! ### Path helpers (src/unnamed/part_000 lines 97-99, src/src/main.tsx
lines 69-86) -/

/-- `path.split('.').filter(Boolean)` -/
def splitPath (path : String) : List String :=
  ((List.splitOn '.' path.data).map String.mk).filter (fun s => s ≠ "")

/-- `splitPath(path).slice(0, -1).join('.')` -/
def parentPath (path : String) : String :=
  String.intercalate "." ((splitPath path).dropLast)

/-- One step of the reduce in `getAtPath` (part_000 line 99):
`acc ? acc[seg] : undefined`. -/
def getAtStep (acc : JVal) (seg : String) : JVal :=
  if truthy acc then jsGet acc seg else vUndef

/-- `getAtPath` of part_000 line 99, on an already-split segment list. -/
def getAtPathSegs (root : JVal) (segs : List String) : JVal :=
  segs.foldl getAtStep root

/-- `getAtPath(root, path)` of src/unnamed/part_000 line 99. -/
def getAtPath (root : JVal) (path : String) : JVal :=
  getAtPathSegs root (splitPath path)

/-- One step of the reduce in `getValueAt` (src/src/main.tsx line 85):
`acc == null ? acc : acc[seg]` (loose equality, so both `null` and
`undefined` propagate themselves). -/
def getValueAtStep (acc : JVal) (seg : String) : JVal :=
  match acc with
  | vNull => vNull
  | vUndef => vUndef
  | v => jsGet v seg

/-- `getValueAt(root, dotted)` of src/src/main.tsx lines 83-86. -/
def getValueAt (root : JVal) (dotted : String) : JVal :=
  (splitPath dotted).foldl getValueAtStep root

/-- `dissectCurrentPath` of src/src/main.tsx lines 69-80: splits the edited
field path into container-path segments, the current field key, and whether
a trailing active-locale segment was dropped. -/
def dissectCurrentPath (ctx : Ctx) : List String × String × Bool :=
  let parts := splitPath ctx.fieldPath
  let pl :=
    match ctx.locale with
    | some l =>
      if l ≠ "" ∧ parts.getLast? = some l then (parts.dropLast, true) else (parts, false)
    | none => (parts, false)
  let currentKey := (pl.1.getLast?).getD ""
  (pl.1.dropLast, currentKey, pl.2)

/-! ### Locale selector and scalar coercion -/

/-- The object-branch loop of `pickAnyLocaleValue`:
`for (const k of Object.keys(raw)) if (raw[k]) return raw[k]; return null`. -/
def firstTruthyKeyVal (obj : JVal) : List String → JVal
  | [] => vNull
  | k :: ks => if truthy (jsGet obj k) then jsGet obj k else firstTruthyKeyVal obj ks

/-- `pickAnyLocaleValue(raw, locale)` of src/src/main.tsx lines 57-62 (the
copy in src/unnamed/part_000 lines 62-67 is identical): non-objects and
arrays are returned as `raw ?? null`; otherwise the active locale entry when
own and truthy, else the first truthy entry in iteration order, else `null`. -/
def pickAnyLocaleValue (raw : JVal) (locale : Option String) : JVal :=
  match raw with
  | vObj kvs =>
    match locale with
    | some l =>
      if l ≠ "" ∧ hasOwnProp (vObj kvs) l = true ∧ truthy (jsGet (vObj kvs) l) = true then
        jsGet (vObj kvs) l
      else firstTruthyKeyVal (vObj kvs) (kvs.map Prod.fst)
    | none => firstTruthyKeyVal (vObj kvs) (kvs.map Prod.fst)
  | v => nullish v vNull

/-- `toStringValue(v)` of src/src/main.tsx lines 42-46: `null`, `undefined`
and `NaN` become the empty string, everything else goes through `String(v)`. -/
def toStringValue : JVal → String
  | vNull => ""
  | vUndef => ""
  | vNaN => ""
  | v => jsToString v

/-! ### Upload value normalizer (src/src/main.tsx lines 89-97) -/

/-- First element extraction `if (Array.isArray(raw)) raw = raw[0]`. -/
def firstIfArray : JVal → JVal
  | vArr xs => (xs.head?).getD vUndef
  | v => v

/-- `normalizeUploadLike(raw)` of src/src/main.tsx lines 89-97.  Returns
`none` for the JavaScript `null` result. -/
def normalizeUploadLike (raw0 : JVal) : Option JVal :=
  if truthy raw0 = false then none
  else
    let raw := firstIfArray raw0
    if truthy raw = false then none
    else if truthy (jsGet raw "upload_id") then some raw
    else if truthy (jsGet (jsGet raw "upload") "id") then
      some (vObj [("upload_id", jsGet (jsGet raw "upload") "id")])
    else
      match raw with
      | vStr s => if jsStartsWith s "http" then some (vObj [("__direct_url", vStr s)]) else none
      | _ => none

/-! ### Tabular normalizer -/

/-- The `{rows, columns}` result of the two row normalizers. -/
structure NormResult where
  rows : List (List (String × JVal))
  columns : List String
deriving Repr, DecidableEq

/-- Builds one output row object: keys `cols` in order, value at position `i`
the string coercion of `vals[i]` (out-of-range reads give `undefined`, which
coerces to the empty string).  This is the `forEach` body shared by
`normalizeSheetRowsStrings` and `normalizeAoA`. -/
def buildRow (cols : List String) (vals : List JVal) : List (String × JVal) :=
  cols.enum.map (fun p => (p.2, vStr (toStringValue (vals.getD p.1 vUndef))))

/-- `normalizeSheetRowsStrings(rows)` of src/unnamed/part_000 lines 49-61
(row-object variant): the column count is `Math.max(1, keys-of-first-row)`,
columns are synthesized `column_1..N`, and every row is rebuilt from its
values in insertion order. -/
def normalizeSheetRowsStrings (rows : List (List (String × JVal))) : NormResult :=
  match rows with
  | [] => ⟨[], []⟩
  | firstRow :: _ =>
    let colCount := max 1 firstRow.length
    let columns := (List.range colCount).map (fun i => "column_" ++ Nat.repr (i + 1))
    let normalizedRows := rows.map (fun r => buildRow columns (r.map Prod.snd))
    ⟨normalizedRows, columns⟩

/-- The blank-row filter of `aoaFromWorksheet` (src/src/main.tsx lines
153-156): keep a row iff some cell satisfies `String(cell ?? '').trim() !== ''`.
The worksheet-to-grid conversion itself is the external XLSX library. -/
def aoaFilterBlank (aoa : List (List JVal)) : List (List JVal) :=
  aoa.filter (fun row => row.any (fun cell => jsTrim (jsToString (nullish cell (vStr ""))) ≠ ""))

/-- The maximum row width of a grid (0 for an empty grid); the reference
quantity of the width invariant. -/
def gridMaxWidth (aoa : List (List JVal)) : Nat :=
  (aoa.map List.length).foldr max 0

/-- `normalizeAoA(aoa)` of src/src/main.tsx lines 157-168:
`maxCols = Math.max(1, ...aoa.map(r => r.length))`, columns `column_1..maxCols`,
every row padded with empty strings to `maxCols` and coerced cell-wise. -/
def normalizeAoA (aoa : List (List JVal)) : NormResult :=
  let maxCols := (aoa.map List.length).foldl max 1
  let columns := (List.range maxCols).map (fun i => "column_" ++ Nat.repr (i + 1))
  let rows := aoa.map (fun r =>
    let padded := r ++ List.replicate (maxCols - r.length) (vStr "")
    buildRow columns padded)
  ⟨rows, columns⟩

/-! ### Block container discovery (src/unnamed/part_000 lines 101-160) -/

/-- `currentFieldInfo(ctx)` (part_000 lines 102-105): the edited field id and
machine name. -/
def currentFieldInfo (ctx : Ctx) : String × Option String :=
  (ctx.field.id, fdApiKey ctx.field)

/-- The match test of the deep walk (part_000 line 121):
`hasOwnProperty(node, id) || (apiKey && hasOwnProperty(node, apiKey))`. -/
def walkMatch (id : String) (apiKey : Option String) (node : JVal) : Bool :=
  hasOwnProp node id ||
    (match apiKey with
     | some a => decide (a ≠ "") && hasOwnProp node a
     | none => false)

mutual
/-- The recursive `walk` of `findBlockContainerWithCurrentField` (part_000
lines 119-130): reject non-objects, return the node with its trail when it
owns the edited field's id or machine name, otherwise recurse into array
elements by index and object entries by key, first hit wins. -/
def walk (id : String) (apiKey : Option String) :
    JVal → List String → Option (JVal × List String)
  | vArr xs, trail =>
    if walkMatch id apiKey (vArr xs) then some (vArr xs, trail)
    else walkArr id apiKey xs trail 0
  | vObj kvs, trail =>
    if walkMatch id apiKey (vObj kvs) then some (vObj kvs, trail)
    else walkObj id apiKey kvs trail
  | _, _ => none
/-- The `for (let i = 0; ...)` loop of `walk` over array elements, carrying
the current index. -/
def walkArr (id : String) (apiKey : Option String) :
    List JVal → List String → Nat → Option (JVal × List String)
  | [], _, _ => none
  | x :: xs, trail, i =>
    match walk id apiKey x (trail ++ [Nat.repr i]) with
    | some r => some r
    | none => walkArr id apiKey xs trail (i + 1)
/-- The `for (const k of Object.keys(node))` loop of `walk` over object
entries. -/
def walkObj (id : String) (apiKey : Option String) :
    List (String × JVal) → List String → Option (JVal × List String)
  | [], _ => none
  | (k, v) :: kvs, trail =>
    match walk id apiKey v (trail ++ [k]) with
    | some r => some r
    | none => walkObj id apiKey kvs trail
end

/-- `findBlockContainerWithCurrentField(ctx)` (part_000 lines 108-132).
Fast path: the node at the parent path of `ctx.fieldPath`, when truthy and
owning `id` or `apiKey ?? ''`.  Fallback: the depth-first `walk` from the
root, its trail joined with dots. -/
def findBlockContainerWithCurrentField (ctx : Ctx) : Option (JVal × String) :=
  let pPath := parentPath ctx.fieldPath
  let container := getAtPath ctx.formValues pPath
  let info := currentFieldInfo ctx
  if truthy container &&
      (hasOwnProp container info.1 || hasOwnProp container ((info.2).getD "")) then
    some (container, pPath)
  else
    (walk info.1 info.2 ctx.formValues []).map
      (fun p => (p.1, String.intercalate "." p.2))

/-- `findFieldDef(ctx, apiKeyOrId)` (part_000 lines 135-140): id-keyed lookup
in `ctx.fields` first, then a search over all descriptors by machine name. -/
def findFieldDef (ctx : Ctx) (apiKeyOrId : String) : Option FieldDef :=
  match ctx.fields.find? (fun p => p.1 == apiKeyOrId) with
  | some p => some p.2
  | none => (ctx.fields.map Prod.snd).find? (fun f => fdApiKey f == some apiKeyOrId)

/-- `[String(def.id), def.apiKey ?? def.attributes?.api_key].filter(Boolean)`
(part_000 line 154): the candidate container keys for a field, identifier
first, with empty/absent entries removed. -/
def keyCandidates (d : FieldDef) : List String :=
  (if d.id ≠ "" then [d.id] else []) ++
    (match fdApiKey d with
     | some a => if a ≠ "" then [a] else []
     | none => [])

/-- The locale suffix `isLocalized && ctx.locale ? '.' + ctx.locale : ''`. -/
def locSuffix (isLocalized : Bool) (locale : Option String) : String :=
  match locale with
  | some l => if isLocalized ∧ l ≠ "" then "." ++ l else ""
  | none => ""

/-- `resolveSiblingPathInBlock(ctx, apiKeyOrId)` (part_000 lines 146-160):
locate the block container, look the target field up, take the first
candidate key the container owns, and append the locale suffix when the
target is localized and a locale is active.  Total: resolution failure is
the `none` result, never an exception. -/
def resolveSiblingPathInBlock (ctx : Ctx) (apiKeyOrId : String) : Option String :=
  match findBlockContainerWithCurrentField ctx with
  | none => none
  | some (container, containerPath) =>
    match findFieldDef ctx apiKeyOrId with
    | none => none
    | some d =>
      match (keyCandidates d).find? (fun k => hasOwnProp container k) with
      | none => none
      | some keyInContainer =>
        some (containerPath ++ "." ++ keyInContainer ++
          locSuffix (isFieldLocalized d) ctx.locale)

/-- `getSiblingFileFromBlock(ctx, siblingApiKey)` of src/unnamed/part_000
lines 179-200: same container and key lookup as the path resolver (with the
raw machine name as the only candidate when no descriptor matches), then the
locale pick, first-of-array extraction and upload normalization inlined
there.  Total: `none` is the JavaScript `null` result. -/
def getSiblingFileFromBlock (ctx : Ctx) (siblingApiKey : String) : Option JVal :=
  match findBlockContainerWithCurrentField ctx with
  | none => none
  | some (container, _) =>
    let candidates :=
      match findFieldDef ctx siblingApiKey with
      | some d => keyCandidates d
      | none => [siblingApiKey]
    match candidates.find? (fun k => hasOwnProp container k) with
    | none => none
    | some key =>
      let raw := pickAnyLocaleValue (jsGet container key) ctx.locale
      if truthy raw = false then none
      else
        let raw := firstIfArray raw
        if truthy (jsGet raw "upload_id") then some raw
        else if truthy (jsGet (jsGet raw "upload") "id") then
          some (vObj [("upload_id", jsGet (jsGet raw "upload") "id")])
        else
          match raw with
          | vStr s => if jsStartsWith s "http" then some (vObj [("__direct_url", vStr s)]) else none
          | _ => none

/-! ### The main.tsx variant of the sibling lookup (src/src/main.tsx lines
103-132), used by the import action modelled below -/

/-- `getSiblingFileFromBlock(ctx, siblingApiKey)` of src/src/main.tsx lines
103-132: builds the id path under the parent container, reads and normalizes
it, and falls back to the machine-name path. -/
def getSiblingFileFromBlockMain (ctx : Ctx) (siblingApiKey : String) : Option JVal :=
  let containerPath := (dissectCurrentPath ctx).1
  let root := ctx.formValues
  let siblingDef :=
    (ctx.fields.map Prod.snd).find? (fun f => fdApiKey f == some siblingApiKey)
  let isLocalized :=
    match siblingDef with
    | some d => isFieldLocalized d
    | none => false
  let suffix := locSuffix isLocalized ctx.locale
  let tryId : Option JVal :=
    match siblingDef with
    | some d =>
      if d.id ≠ "" then
        let idPath := String.intercalate "." (containerPath ++ [d.id]) ++ suffix
        normalizeUploadLike (pickAnyLocaleValue (getValueAt root idPath) ctx.locale)
      else none
    | none => none
  match tryId with
  | some v => some v
  | none =>
    let ak :=
      match siblingDef with
      | some d => (fdApiKey d).getD siblingApiKey
      | none => siblingApiKey
    let akPath := String.intercalate "." (containerPath ++ [ak]) ++ suffix
    normalizeUploadLike (pickAnyLocaleValue (getValueAt root akPath) ctx.locale)

/-! ### Import action effect model (src/src/main.tsx lines 50-56, 138-150,
207-284) -/

/-- Minimal JSON string escaping for `JSON.stringify` (quote and backslash;
no theorem below inspects the rendered text). -/
def escapeJson (s : String) : String :=
  s.foldl (fun acc c =>
    acc ++ (if c = '"' then "\\\"" else if c = '\\' then "\\\\" else String.singleton c)) ""

mutual
/-- `JSON.stringify` over the embedded values.  `undefined` occurs in none of
the payloads built below; inside arrays it would render as `null`, and
object entries holding it are dropped, as in JavaScript. -/
def jsonStringify : JVal → String
  | vNull => "null"
  | vUndef => "null"
  | vBool b => if b then "true" else "false"
  | vNum q => toString q
  | vNaN => "null"
  | vStr s => "\"" ++ escapeJson s ++ "\""
  | vArr xs => "[" ++ String.intercalate "," (jsonStringifyList xs) ++ "]"
  | vObj kvs => "\x7b" ++ String.intercalate "," (jsonStringifyObj kvs) ++ "\x7d"
/-- Array elements for `jsonStringify`. -/
def jsonStringifyList : List JVal → List String
  | [] => []
  | x :: xs => jsonStringify x :: jsonStringifyList xs
/-- Object members for `jsonStringify`; entries with `undefined` values are
dropped. -/
def jsonStringifyObj : List (String × JVal) → List String
  | [] => []
  | (_, vUndef) :: kvs => jsonStringifyObj kvs
  | (k, v) :: kvs =>
    ("\"" ++ escapeJson k ++ "\":" ++ jsonStringify v) :: jsonStringifyObj kvs
end

/-- One observable host interaction of the import action.  `setFieldValue`
is the only field-state mutation the host exposes; `yieldControl` is the
`await Promise.resolve()` between the two writes; the remaining constructors
record the external calls and user notices in program order. -/
inductive Effect where
  | setFieldValue (path : String) (value : JVal)
  | yieldControl
  | fetchMetaCall
  | httpFetch (url : String)
  | parseSheet
  | saveItem
  | showNotice (msg : String)
deriving Repr, DecidableEq

/-- The value stored into the edited field by `writePayload` (src/src/main.tsx
lines 50-56): the payload object itself for a JSON field, its JSON text
otherwise. -/
def encodePayloadValue (fieldIsJson : Bool) (payload : JVal) : JVal :=
  if fieldIsJson then payload else vStr (jsonStringify payload)

/-- The effect trace of `writePayload` (src/src/main.tsx lines 50-56): clear
to `null` to force a diff, yield control, then write the real value. -/
def writePayload (fieldPath : String) (fieldIsJson : Bool) (payload : JVal) : List Effect :=
  [Effect.setFieldValue fieldPath vNull, Effect.yieldControl,
   Effect.setFieldValue fieldPath (encodePayloadValue fieldIsJson payload)]

/-- The effect trace of `setSiblingInBlock(ctx, apiKey, value)`
(src/src/main.tsx lines 138-150): resolve the descriptor by machine name,
silently do nothing without an id, otherwise write the id path under the
block container with the locale suffix. -/
def setSiblingTrace (ctx : Ctx) (apiKey : String) (value : JVal) : List Effect :=
  let containerPath := (dissectCurrentPath ctx).1
  match (ctx.fields.map Prod.snd).find? (fun f => fdApiKey f == some apiKey) with
  | none => []
  | some d =>
    if d.id = "" then []
    else
      let suffix := locSuffix (isFieldLocalized d) ctx.locale
      let targetPath := String.intercalate "." (containerPath ++ [d.id]) ++ suffix
      [Effect.setFieldValue targetPath value]

/-- Result of the CMA upload-metadata call consumed by the import action. -/
structure MetaInfo where
  url : Option String
  mime : Option String
  filename : Option String
deriving Repr, DecidableEq

/-- The inputs of one `importFromBlock` run (src/src/main.tsx lines 207-284):
the render context, the configured parameters, and the outcomes of the three
external awaits (CMA metadata lookup, HTTP fetch, spreadsheet parse), plus
the sampled nonce and timestamp. -/
structure ImportEnv where
  ctx : Ctx
  sourceApiKey : String
  columnsMetaApiKey : Option String
  rowCountApiKey : Option String
  fieldIsJson : Bool
  metaOutcome : Except String (Option MetaInfo)
  fetchOk : Bool
  fetchError : String
  parseOutcome : Except String (List (List JVal))
  nonce : Nat
  importedAt : String
deriving Repr

/-- The cache-defeating download URL
`meta.url + (meta.url.includes('?') ? '&' : '?') + 'cb=' + bust`. -/
def bustUrl (url : String) (nonce : Nat) : String :=
  url ++ (if jsContainsChar url '?' then "&" else "?") ++ "cb=" ++ Nat.repr nonce

/-- The matrix payload object built by `importFromBlock` (src/src/main.tsx
lines 252-257; the constant `PAYLOAD_SHAPE` is `'matrix'`). -/
def payloadFor (e : ImportEnv) (norm : NormResult) (meta : MetaInfo) : JVal :=
  vObj [("columns", vArr (norm.columns.map vStr)),
        ("data", vArr (norm.rows.map (fun r =>
          vArr (norm.columns.map (fun c => nullish (jsGet (vObj r) c) (vStr "")))))),
        ("meta", vObj [("filename", (meta.filename.map vStr).getD vNull),
                       ("mime", (meta.mime.map vStr).getD vNull),
                       ("imported_at", vStr e.importedAt),
                       ("nonce", vNum (e.nonce : Rat))])]

/-- Whether the CMA metadata outcome carries a truthy URL (`!meta?.url`). -/
def metaUrlOk : Except String (Option MetaInfo) → Bool
  | Except.ok (some meta) =>
    match meta.url with
    | some u => decide (u ≠ "")
    | none => false
  | _ => false

/-- Whether the metadata declares an image MIME type
(`meta.mime && meta.mime.startsWith('image/')`). -/
def metaIsImage (meta : MetaInfo) : Bool :=
  match meta.mime with
  | some m => jsStartsWith m "image/"
  | none => false

/-- The optional columns-meta sibling write of the import action
(`if (params.columnsMetaApiKey) await setSiblingInBlock(...)`). -/
def columnsMetaWrites (e : ImportEnv) (norm : NormResult) : List Effect :=
  match e.columnsMetaApiKey with
  | some ck =>
    if ck ≠ "" then
      setSiblingTrace e.ctx ck (vObj [("columns", vArr (norm.columns.map vStr))])
    else []
  | none => []

/-- The optional row-count sibling write of the import action. -/
def rowCountWrites (e : ImportEnv) (norm : NormResult) : List Effect :=
  match e.rowCountApiKey with
  | some rk =>
    if rk ≠ "" then setSiblingTrace e.ctx rk (vNum (norm.rows.length : Rat))
    else []
  | none => []

/-- The notice-message text is abbreviated throughout the trace model; no
theorem inspects it. -/
def importTrace (e : ImportEnv) : List Effect :=
  match getSiblingFileFromBlockMain e.ctx e.sourceApiKey with
  | none => [Effect.showNotice "no file found in this block"]
  | some _ =>
    Effect.fetchMetaCall ::
    match e.metaOutcome with
    | Except.error msg => [Effect.showNotice ("Import failed: " ++ msg)]
    | Except.ok metaOpt =>
      match metaOpt with
      | none => [Effect.showNotice "could not resolve upload URL"]
      | some meta =>
        match meta.url with
        | none => [Effect.showNotice "could not resolve upload URL"]
        | some url =>
          if url = "" then [Effect.showNotice "could not resolve upload URL"]
          else if metaIsImage meta then [Effect.showNotice "selected file looks like an image"]
          else
            Effect.httpFetch (bustUrl url e.nonce) ::
            if e.fetchOk = false then
              [Effect.showNotice ("Import failed: Fetch failed: " ++ e.fetchError)]
            else
              Effect.parseSheet ::
              match e.parseOutcome with
              | Except.error msg => [Effect.showNotice ("Import failed: " ++ msg)]
              | Except.ok grid =>
                let norm := normalizeAoA (aoaFilterBlank grid)
                writePayload e.ctx.fieldPath e.fieldIsJson (payloadFor e norm meta) ++
                columnsMetaWrites e norm ++ rowCountWrites e norm ++
                [Effect.saveItem, Effect.showNotice "Imported"]

/-- The optional sibling meta-field writes an import run performs after the
payload write (columns list and row count), empty unless configured. -/
def siblingMetaEffects (e : ImportEnv) : List Effect :=
  match e.parseOutcome with
  | Except.error _ => []
  | Except.ok grid =>
    let norm := normalizeAoA (aoaFilterBlank grid)
    columnsMetaWrites e norm ++ rowCountWrites e norm

/-- All pre-write stages of an import succeed: a sibling file resolved, the
metadata call returned a truthy non-image URL, the HTTP fetch was OK, and
the spreadsheet parsed. -/
def importSucceeds (e : ImportEnv) : Bool :=
  (getSiblingFileFromBlockMain e.ctx e.sourceApiKey).isSome &&
  metaUrlOk e.metaOutcome &&
  (match e.metaOutcome with
   | Except.ok (some meta) => !metaIsImage meta
   | _ => false) &&
  e.fetchOk &&
  (match e.parseOutcome with
   | Except.ok _ => true
   | Except.error _ => false)

/-- Whether an effect is a field-state mutation. -/
def isSetField : Effect → Bool
  | Effect.setFieldValue _ _ => true
  | _ => false

/-- Whether an effect is a field-state mutation of the given path. -/
def isSetOn (path : String) : Effect → Bool
  | Effect.setFieldValue p _ => p == path
  | _ => false

/-! ### Specification-side definitions

These definitions follow the wording of the specification (for the
refinement-style claims about the upload normalizer and locale selector);
each is compared against the function translated from the source. -/

/-- A string beginning with an http(s) scheme, read strictly: the scheme
name followed by the scheme separator. -/
def beginsWithHttpScheme (s : String) : Bool :=
  jsStartsWith s "http://" || jsStartsWith s "https://"

/-- Classification of a (first-element-extracted) value per the
specification of the upload normalizer: an upload identifier carried
directly, an identifier nested under an upload relation, a string beginning
with an http(s) scheme, otherwise no usable file. -/
def uploadRefClaim (v : JVal) : Option JVal :=
  if truthy (jsGet v "upload_id") then some v
  else if truthy (jsGet (jsGet v "upload") "id") then
    some (vObj [("upload_id", jsGet (jsGet v "upload") "id")])
  else
    match v with
    | vStr s => if beginsWithHttpScheme s then some (vObj [("__direct_url", vStr s)]) else none
    | _ => none

/-- The upload normalizer as the claim states it: take the first element of
an ordered sequence, then classify. -/
def uploadClaimSpec (raw : JVal) : Option JVal :=
  uploadRefClaim (firstIfArray raw)

/-- `uploadRefClaim` with the http test amended to the prefix test the code
performs (`raw.startsWith('http')`). -/
def uploadRefAmended (v : JVal) : Option JVal :=
  if truthy (jsGet v "upload_id") then some v
  else if truthy (jsGet (jsGet v "upload") "id") then
    some (vObj [("upload_id", jsGet (jsGet v "upload") "id")])
  else
    match v with
    | vStr s => if jsStartsWith s "http" then some (vObj [("__direct_url", vStr s)]) else none
    | _ => none

/-- The amended upload-normalizer specification. -/
def uploadClaimAmended (raw : JVal) : Option JVal :=
  uploadRefAmended (firstIfArray raw)

/-- The locale selector as the claim states it: a value that is not an
object (or is an ordered sequence) is returned unchanged; on an object, the
active locale entry when own and truthy, else the first truthy entry in
iteration order, else null. -/
def localeSelectorClaim (raw : JVal) (locale : Option String) : JVal :=
  match raw with
  | vObj kvs =>
    match locale with
    | some l =>
      if l ≠ "" ∧ hasOwnProp (vObj kvs) l = true ∧ truthy (jsGet (vObj kvs) l) = true then
        jsGet (vObj kvs) l
      else firstTruthyKeyVal (vObj kvs) (kvs.map Prod.fst)
    | none => firstTruthyKeyVal (vObj kvs) (kvs.map Prod.fst)
  | v => v

/-- The locale-selector specification amended on the one point the code
differs: a missing (`undefined`) value is returned as `null`, not unchanged. -/
def localeSelectorAmended (raw : JVal) (locale : Option String) : JVal :=
  match raw with
  | vObj kvs =>
    match locale with
    | some l =>
      if l ≠ "" ∧ hasOwnProp (vObj kvs) l = true ∧ truthy (jsGet (vObj kvs) l) = true then
        jsGet (vObj kvs) l
      else firstTruthyKeyVal (vObj kvs) (kvs.map Prod.fst)
    | none => firstTruthyKeyVal (vObj kvs) (kvs.map Prod.fst)
  | vUndef => vNull
  | v => v

/-! ### Helper lemmas -/

theorem uploadRefAmended_of_falsy (v : JVal) (h : truthy v = false) :
    uploadRefAmended v = none := by
  cases v with
  | vStr s =>
    have hs : s = "" := by
      by_contra hne
      simp [truthy, hne] at h
    subst hs
    rfl
  | vBool b =>
    have hb : b = false := by simpa [truthy] using h
    subst hb
    rfl
  | vNum q =>
    have hq : q = 0 := by
      by_contra hne
      simp [truthy, hne] at h
    subst hq
    rfl
  | vArr xs => simp [truthy] at h
  | vObj kvs => simp [truthy] at h
  | _ => rfl

theorem normalizeUploadLike_eq_guarded (raw : JVal) :
    normalizeUploadLike raw =
      if truthy raw = false then none
      else if truthy (firstIfArray raw) = false then none
      else uploadRefAmended (firstIfArray raw) := rfl

/-! ### C4: the upload value normalizer -/

/-- C4 counterexample: on the string "httpx" — which does not begin with an
http(s) scheme and carries no upload identifier, so the claim's case
analysis demands `null` — the normalizer returns a direct-URL reference,
because the code only tests the four-character prefix `http`. -/
theorem normalizeUploadLike_httpx_breaks_claim :
    normalizeUploadLike (vStr "httpx") = some (vObj [("__direct_url", vStr "httpx")]) ∧
    normalizeUploadLike (vStr "httpx") ≠ uploadClaimSpec (vStr "httpx") := by
  constructor
  · decide
  · decide

/-- C4 (amended): for every raw value the normalizer takes the first element
of an ordered sequence and classifies the result — an upload identifier
carried directly, an identifier nested under an upload relation, or a string
with prefix `http` (not only a well-formed http(s) scheme) as a direct URL —
and returns `null` otherwise; being total, it never throws. -/
theorem normalizeUploadLike_matches_amended_claim :
    ∀ raw, normalizeUploadLike raw = uploadClaimAmended raw := by
  intro raw
  rw [normalizeUploadLike_eq_guarded, uploadClaimAmended]
  by_cases h0 : truthy raw = false
  · rw [if_pos h0]
    have hname : firstIfArray raw = raw := by
      cases raw <;> first | rfl | (simp [truthy] at h0)
    rw [hname, uploadRefAmended_of_falsy raw h0]
  · rw [if_neg h0]
    by_cases h1 : truthy (firstIfArray raw) = false
    · rw [if_pos h1, uploadRefAmended_of_falsy _ h1]
    · rw [if_neg h1]

/-! ### C5: the locale selector -/

/-- C5 counterexample: a missing (`undefined`) raw value is not an object,
so the claim requires it back unchanged, but the selector returns `null`
(the code's `raw ?? null`). -/
theorem pickAnyLocaleValue_undefined_breaks_claim :
    pickAnyLocaleValue vUndef none = vNull ∧
    pickAnyLocaleValue vUndef none ≠ localeSelectorClaim vUndef none := by
  exact ⟨rfl, by decide⟩

/-- C5 (amended): for every raw field value and active locale the selector
returns the value unchanged when it is not an object or is an ordered
sequence — except that `undefined` is coerced to `null` — the active
locale's entry when that key is own with a truthy value, otherwise the first
key in iteration order with a truthy value, otherwise `null`. -/
theorem pickAnyLocaleValue_matches_amended_claim :
    ∀ raw locale, pickAnyLocaleValue raw locale = localeSelectorAmended raw locale := by
  intro raw locale
  cases raw <;> rfl

/-! ### Tabular normalizer lemmas -/

theorem foldl_max_eq (l : List Nat) : ∀ a : Nat, l.foldl max a = max a (l.foldr max 0) := by
  induction l with
  | nil => intro a; simp
  | cons x l ih =>
    intro a
    show (x :: l).foldl max a = max a ((x :: l).foldr max 0)
    rw [List.foldl_cons, List.foldr_cons, ih (max a x), Nat.max_assoc]

theorem buildRow_length (cols : List String) (vals : List JVal) :
    (buildRow cols vals).length = cols.length := by
  simp [buildRow]

theorem mem_enum_fst_lt {α : Type} {p : Nat × α} {l : List α} (h : p ∈ l.enum) :
    p.1 < l.length := by
  have := List.mem_enum_iff_get?.1 h
  have h2 : p.1 < l.length := by
    by_contra hge
    rw [List.get?_eq_none.2 (by omega)] at this
    exact Option.noConfusion this
  exact h2

theorem normalizeAoA_columns_len (aoa : List (List JVal)) :
    (normalizeAoA aoa).columns.length = max 1 (gridMaxWidth aoa) := by
  show ((List.range ((aoa.map List.length).foldl max 1)).map
      (fun i => "column_" ++ Nat.repr (i + 1))).length = _
  rw [List.length_map, List.length_range, foldl_max_eq]
  rfl

theorem normalizeAoA_columns_shape (aoa : List (List JVal)) :
    (normalizeAoA aoa).columns =
      (List.range (max 1 (gridMaxWidth aoa))).map (fun i => "column_" ++ Nat.repr (i + 1)) := by
  show (List.range ((aoa.map List.length).foldl max 1)).map _ = _
  rw [foldl_max_eq]
  rfl

theorem normalizeAoA_row_len (aoa : List (List JVal)) :
    ∀ r ∈ (normalizeAoA aoa).rows, r.length = (normalizeAoA aoa).columns.length := by
  intro r hr
  obtain ⟨src, _, rfl⟩ := List.mem_map.1 hr
  exact buildRow_length _ _

/-! ### C6: the width invariant of the grid normalizer -/

/-- C6 counterexample: on the grid holding one zero-width row the maximum
observed row width is 0 but the normalizer still synthesizes one column, so
`columns.length` does not equal the maximum row width of the source grid. -/
theorem normalizeAoA_width_claim_fails_on_empty_row :
    (normalizeAoA [([] : List JVal)]).columns.length = 1 ∧
    gridMaxWidth [([] : List JVal)] = 0 ∧
    (normalizeAoA [([] : List JVal)]).columns.length ≠ gridMaxWidth [([] : List JVal)] := by
  refine ⟨rfl, rfl, ?_⟩
  decide

/-- C6 (amended): for every input grid, every row of the normalized table
has exactly `columns.length` entries, and `columns.length` equals
`max 1 w` where `w` is the maximum row width observed in the source grid
(so it equals the maximum row width whenever some row is non-empty), with
columns synthesized as `column_1` through `column_N`. -/
theorem normalizeAoA_width_invariant (aoa : List (List JVal)) :
    (normalizeAoA aoa).columns.length = max 1 (gridMaxWidth aoa) ∧
    (normalizeAoA aoa).columns =
      (List.range (max 1 (gridMaxWidth aoa))).map (fun i => "column_" ++ Nat.repr (i + 1)) ∧
    ∀ r ∈ (normalizeAoA aoa).rows, r.length = (normalizeAoA aoa).columns.length :=
  ⟨normalizeAoA_columns_len aoa, normalizeAoA_columns_shape aoa, normalizeAoA_row_len aoa⟩

/-- C6 witness: the singleton grid `[["a"]]` instantiates the amended width
invariant, its lone normalized row having exactly one entry. -/
theorem normalizeAoA_width_invariant_example :
    (normalizeAoA [[vStr "a"]]).columns.length = max 1 (gridMaxWidth [[vStr "a"]]) ∧
    ([("column_1", vStr "a")] : List (String × JVal)).length =
      (normalizeAoA [[vStr "a"]]).columns.length :=
  ⟨(normalizeAoA_width_invariant [[vStr "a"]]).1,
   (normalizeAoA_width_invariant [[vStr "a"]]).2.2 [("column_1", vStr "a")] (by decide)⟩

/-! ### C7: blank-row dropping -/

/-- C7: in the grid-based path every row whose cells are all empty after
trimming is dropped — in particular the grid `[["a","b"],["",""],["c","d"]]`
filters to exactly its two non-blank rows — while the row-object variant
`normalizeSheetRowsStrings` preserves the row count of every input. -/
theorem blank_rows_dropped :
    (∀ (aoa : List (List JVal)) (row : List JVal), row ∈ aoa →
      (∀ cell ∈ row, jsTrim (jsToString (nullish cell (vStr ""))) = "") →
      row ∉ aoaFilterBlank aoa) ∧
    aoaFilterBlank [[vStr "a", vStr "b"], [vStr "", vStr ""], [vStr "c", vStr "d"]] =
      [[vStr "a", vStr "b"], [vStr "c", vStr "d"]] ∧
    ∀ rows, (normalizeSheetRowsStrings rows).rows.length = rows.length := by
  refine ⟨?_, by decide, ?_⟩
  · intro aoa row _ hblank hmem
    have hp := (List.mem_filter.1 hmem).2
    rw [List.any_eq_true] at hp
    obtain ⟨cell, hcell, htrim⟩ := hp
    exact (of_decide_eq_true htrim) (hblank cell hcell)
  · intro rows
    cases rows with
    | nil => rfl
    | cons r rest => simp [normalizeSheetRowsStrings]

/-- C7 witness: a row holding one whitespace-only cell is dropped by the
grid-based filter. -/
theorem blank_rows_dropped_example :
    ([vStr " "] : List JVal) ∉ aoaFilterBlank [[vStr " "]] :=
  blank_rows_dropped.1 [[vStr " "]] [vStr " "] (by decide) (by decide)

/-! ### C8: idempotence of row normalization -/

theorem buildRow_snd_getD (cols : List String) (vals : List JVal) (i : Nat)
    (h : i < cols.length) :
    ((buildRow cols vals).map Prod.snd).getD i vUndef =
      vStr (toStringValue (vals.getD i vUndef)) := by
  rw [buildRow, List.map_map, List.getD, List.get?_map, List.get?_enum]
  obtain ⟨c, hc⟩ : ∃ c, cols.get? i = some c := by
    rw [List.get?_eq_get h]
    exact ⟨_, rfl⟩
  rw [hc]
  rfl

theorem buildRow_idem (cols : List String) (vals : List JVal) :
    buildRow cols ((buildRow cols vals).map Prod.snd) = buildRow cols vals := by
  show cols.enum.map _ = cols.enum.map _
  apply List.map_congr_left
  intro p hp
  have hlt : p.1 < cols.length := mem_enum_fst_lt hp
  rw [buildRow_snd_getD cols vals p.1 hlt]
  rfl

/-- Columns synthesized as `column_1 .. column_n`; `normalizeSheetRowsStrings`
builds exactly this list for `n` the clamped first-row width. -/
def mkCols (n : Nat) : List String :=
  (List.range n).map (fun i => "column_" ++ Nat.repr (i + 1))

theorem mkCols_length (n : Nat) : (mkCols n).length = n := by
  simp [mkCols]

theorem normalizeSheetRowsStrings_cons (r : List (String × JVal))
    (rest : List (List (String × JVal))) :
    normalizeSheetRowsStrings (r :: rest) =
      ⟨(r :: rest).map (fun x => buildRow (mkCols (max 1 r.length)) (x.map Prod.snd)),
       mkCols (max 1 r.length)⟩ := rfl

/-- C8: row normalization is idempotent — normalizing the rows of an
already-normalized table returns the identical columns and rows, so
normalized tables are fixed points of `normalizeSheetRowsStrings`. -/
theorem normalizeSheetRowsStrings_idempotent :
    ∀ rows, normalizeSheetRowsStrings (normalizeSheetRowsStrings rows).rows =
      normalizeSheetRowsStrings rows := by
  intro rows
  cases rows with
  | nil => rfl
  | cons r rest =>
    rw [normalizeSheetRowsStrings_cons, List.map_cons, normalizeSheetRowsStrings_cons]
    have h1 : max 1 (buildRow (mkCols (max 1 r.length)) (r.map Prod.snd)).length =
        max 1 r.length := by
      rw [buildRow_length, mkCols_length]
      omega
    rw [h1]
    congr 1
    rw [← List.map_cons (fun x => buildRow (mkCols (max 1 r.length)) (x.map Prod.snd)) r rest,
      List.map_map]
    apply List.map_congr_left
    intro x _
    exact buildRow_idem _ _

/-! ### C10: totality and the at-least-one-column guarantee -/

/-- C10: the grid normalizer is total and always emits at least one column:
for every grid the column count is `max 1 w` with `w` the maximum row width
(so 1 even when every row is zero-width), and the empty grid yields exactly
`column_1` with no rows. -/
theorem normalizeAoA_total_min_columns :
    (∀ aoa, (normalizeAoA aoa).columns.length = max 1 (gridMaxWidth aoa)) ∧
    normalizeAoA [] = ⟨[], ["column_1"]⟩ :=
  ⟨normalizeAoA_columns_len, by decide⟩

/-! ### Tree navigation lemmas for the resolver claims -/

/-- A concrete descent through the value tree: `PathVia root segs n` holds
when following `segs` from `root` — array elements by their canonical index
string, object entries by key — reaches the node `n`. -/
inductive PathVia : JVal → List String → JVal → Prop where
  | here (v : JVal) : PathVia v [] v
  | intoArr {xs : List JVal} {i : Nat} {x : JVal} {rest : List String} {n : JVal} :
      xs.get? i = some x → PathVia x rest n → PathVia (vArr xs) (Nat.repr i :: rest) n
  | intoObj {kvs : List (String × JVal)} {k : String} {v : JVal} {rest : List String} {n : JVal} :
      (k, v) ∈ kvs → PathVia v rest n → PathVia (vObj kvs) (k :: rest) n

theorem subvalues_self : ∀ v : JVal, v ∈ subvalues v := by
  intro v
  cases v <;> simp [subvalues]

theorem mem_subvaluesList {n : JVal} :
    ∀ {xs : List JVal}, n ∈ subvaluesList xs ↔ ∃ x ∈ xs, n ∈ subvalues x := by
  intro xs
  induction xs with
  | nil => simp [subvaluesList]
  | cons x xs ih =>
    show n ∈ subvalues x ++ subvaluesList xs ↔ _
    rw [List.mem_append, ih]
    constructor
    · rintro (h | ⟨y, hy, hn⟩)
      · exact ⟨x, by simp, h⟩
      · exact ⟨y, by simp [hy], hn⟩
    · rintro ⟨y, hy, hn⟩
      rcases List.mem_cons.1 hy with rfl | hy
      · exact Or.inl hn
      · exact Or.inr ⟨y, hy, hn⟩

theorem mem_subvaluesObj {n : JVal} :
    ∀ {kvs : List (String × JVal)}, n ∈ subvaluesObj kvs ↔ ∃ kv ∈ kvs, n ∈ subvalues kv.2 := by
  intro kvs
  induction kvs with
  | nil => simp [subvaluesObj]
  | cons kv kvs ih =>
    obtain ⟨k, v⟩ := kv
    show n ∈ subvalues v ++ subvaluesObj kvs ↔ _
    rw [List.mem_append, ih]
    constructor
    · rintro (h | ⟨y, hy, hn⟩)
      · exact ⟨(k, v), by simp, h⟩
      · exact ⟨y, by simp [hy], hn⟩
    · rintro ⟨y, hy, hn⟩
      rcases List.mem_cons.1 hy with rfl | hy
      · exact Or.inl hn
      · exact Or.inr ⟨y, hy, hn⟩

theorem subvalues_trans : ∀ a : JVal, ∀ {b c : JVal},
    b ∈ subvalues a → c ∈ subvalues b → c ∈ subvalues a := by
  intro a
  induction a using JVal.myInd with
  | hArr xs ih =>
    intro b c hb hc
    rcases List.mem_cons.1 hb with rfl | hb
    · exact hc
    · obtain ⟨x, hx, hbx⟩ := mem_subvaluesList.1 hb
      exact List.mem_cons.2 (Or.inr (mem_subvaluesList.2 ⟨x, hx, ih x hx hbx hc⟩))
  | hObj kvs ih =>
    intro b c hb hc
    rcases List.mem_cons.1 hb with rfl | hb
    · exact hc
    · obtain ⟨kv, hkv, hbkv⟩ := mem_subvaluesObj.1 hb
      exact List.mem_cons.2 (Or.inr (mem_subvaluesObj.2 ⟨kv, hkv, ih kv hkv hbkv hc⟩))
  | _ =>
    intro b c hb hc
    rcases List.mem_singleton.1 hb with rfl
    exact hc

theorem jsGet_mem (v : JVal) (k : String) :
    jsGet v k = vUndef ∨ jsGet v k ∈ subvalues v := by
  cases v with
  | vObj kvs =>
    rw [jsGet]
    cases hf : kvs.find? (fun kv => kv.1 == k) with
    | none => exact Or.inl rfl
    | some kv =>
      right
      have hm := List.mem_of_find?_eq_some hf
      exact List.mem_cons.2 (Or.inr (mem_subvaluesObj.2 ⟨kv, hm, subvalues_self kv.2⟩))
  | vArr xs =>
    rw [jsGet]
    cases hf : xs.enum.find? (fun p => Nat.repr p.1 == k) with
    | none => exact Or.inl rfl
    | some p =>
      right
      have hm := List.mem_of_find?_eq_some hf
      have hx : p.2 ∈ xs := by
        have := List.mem_enum_iff_get?.1 hm
        exact List.get?_mem this
      exact List.mem_cons.2 (Or.inr (mem_subvaluesList.2 ⟨p.2, hx, subvalues_self p.2⟩))
  | _ => exact Or.inl rfl

theorem getAtPathSegs_undef (segs : List String) : getAtPathSegs vUndef segs = vUndef := by
  induction segs with
  | nil => rfl
  | cons s segs ih =>
    show getAtPathSegs (getAtStep vUndef s) segs = vUndef
    exact ih

theorem getAtPathSegs_mem (segs : List String) : ∀ root : JVal,
    getAtPathSegs root segs = vUndef ∨ getAtPathSegs root segs ∈ subvalues root := by
  induction segs with
  | nil => intro root; exact Or.inr (subvalues_self root)
  | cons s segs ih =>
    intro root
    by_cases ht : truthy root = true
    · have hstep : getAtPathSegs root (s :: segs) = getAtPathSegs (jsGet root s) segs := by
        show getAtPathSegs (getAtStep root s) segs = _
        rw [getAtStep, if_pos ht]
      rw [hstep]
      rcases jsGet_mem root s with hu | hm
      · rw [hu]
        exact Or.inl (getAtPathSegs_undef segs)
      · rcases ih (jsGet root s) with hu | hsub
        · exact Or.inl hu
        · exact Or.inr (subvalues_trans root hm hsub)
    · have hstep : getAtPathSegs root (s :: segs) = getAtPathSegs vUndef segs := by
        show getAtPathSegs (getAtStep root s) segs = _
        rw [getAtStep, if_neg ht]
      rw [hstep]
      exact Or.inl (getAtPathSegs_undef segs)

theorem walkMatch_scalar (id : String) (apiKey : Option String) (v : JVal)
    (h : ∀ xs, v ≠ vArr xs) (h2 : ∀ kvs, v ≠ vObj kvs) :
    walkMatch id apiKey v = false := by
  have hown : ∀ k, hasOwnProp v k = false := by
    intro k
    cases v with
    | vArr xs => exact absurd rfl (h xs)
    | vObj kvs => exact absurd rfl (h2 kvs)
    | _ => rfl
  cases apiKey with
  | none =>
    show (hasOwnProp v id || false) = false
    rw [hown]
    rfl
  | some a =>
    show (hasOwnProp v id || (decide (a ≠ "") && hasOwnProp v a)) = false
    rw [hown, hown]
    simp

theorem walkArr_elim (id : String) (apiKey : Option String) :
    ∀ (ys : List JVal) (trail : List String) (i : Nat) (r : JVal × List String),
      walkArr id apiKey ys trail i = some r →
      ∃ j y, ys.get? j = some y ∧ walk id apiKey y (trail ++ [Nat.repr (i + j)]) = some r := by
  intro ys
  induction ys with
  | nil => intro trail i r h; exact Option.noConfusion h
  | cons y ys ih =>
    intro trail i r h
    rw [walkArr] at h
    cases hw : walk id apiKey y (trail ++ [Nat.repr i]) with
    | some r' =>
      rw [hw] at h
      refine ⟨0, y, rfl, ?_⟩
      rw [Nat.add_zero, hw]
      exact h
    | none =>
      rw [hw] at h
      obtain ⟨j, y', hy', hwy⟩ := ih trail (i + 1) r h
      refine ⟨j + 1, y', hy', ?_⟩
      have : i + (j + 1) = i + 1 + j := by omega
      rw [this]
      exact hwy

theorem walkObj_elim (id : String) (apiKey : Option String) :
    ∀ (kvs : List (String × JVal)) (trail : List String) (r : JVal × List String),
      walkObj id apiKey kvs trail = some r →
      ∃ k v, (k, v) ∈ kvs ∧ walk id apiKey v (trail ++ [k]) = some r := by
  intro kvs
  induction kvs with
  | nil => intro trail r h; exact Option.noConfusion h
  | cons kv kvs ih =>
    obtain ⟨k, v⟩ := kv
    intro trail r h
    rw [walkObj] at h
    cases hw : walk id apiKey v (trail ++ [k]) with
    | some r' =>
      rw [hw] at h
      exact ⟨k, v, by simp, by rw [hw]; exact h⟩
    | none =>
      rw [hw] at h
      obtain ⟨k', v', hm, hwv⟩ := ih trail r h
      exact ⟨k', v', by simp [hm], hwv⟩

theorem walkArr_none_elim (id : String) (apiKey : Option String) :
    ∀ (ys : List JVal) (trail : List String) (i : Nat),
      walkArr id apiKey ys trail i = none →
      ∀ y ∈ ys, ∃ t, walk id apiKey y t = none := by
  intro ys
  induction ys with
  | nil => intro trail i _ y hy; exact absurd hy (List.not_mem_nil y)
  | cons y ys ih =>
    intro trail i h z hz
    rw [walkArr] at h
    cases hw : walk id apiKey y (trail ++ [Nat.repr i]) with
    | some r => rw [hw] at h; exact Option.noConfusion h
    | none =>
      rw [hw] at h
      rcases List.mem_cons.1 hz with rfl | hz
      · exact ⟨trail ++ [Nat.repr i], hw⟩
      · exact ih trail (i + 1) h z hz

theorem walkObj_none_elim (id : String) (apiKey : Option String) :
    ∀ (kvs : List (String × JVal)) (trail : List String),
      walkObj id apiKey kvs trail = none →
      ∀ kv ∈ kvs, ∃ t, walk id apiKey kv.2 t = none := by
  intro kvs
  induction kvs with
  | nil => intro trail _ kv hkv; exact absurd hkv (List.not_mem_nil kv)
  | cons kv kvs ih =>
    obtain ⟨k, v⟩ := kv
    intro trail h z hz
    rw [walkObj] at h
    cases hw : walk id apiKey v (trail ++ [k]) with
    | some r => rw [hw] at h; exact Option.noConfusion h
    | none =>
      rw [hw] at h
      rcases List.mem_cons.1 hz with rfl | hz
      · exact ⟨trail ++ [k], hw⟩
      · exact ih trail h z hz

theorem walk_sound (id : String) (apiKey : Option String) :
    ∀ (v : JVal) (trail : List String) (c : JVal) (s : List String),
      walk id apiKey v trail = some (c, s) →
      walkMatch id apiKey c = true ∧ c ∈ subvalues v ∧
        ∃ rel, s = trail ++ rel ∧ PathVia v rel c := by
  intro v
  induction v using JVal.myInd with
  | hArr xs ih =>
    intro trail c s h
    rw [walk] at h
    by_cases hm : walkMatch id apiKey (vArr xs) = true
    · rw [if_pos hm] at h
      obtain ⟨rfl, rfl⟩ : vArr xs = c ∧ trail = s := by
        have := Option.some.inj h
        exact ⟨congrArg Prod.fst this, congrArg Prod.snd this⟩
      exact ⟨hm, subvalues_self _, [], by simp, PathVia.here _⟩
    · rw [if_neg hm] at h
      obtain ⟨j, y, hy, hwy⟩ := walkArr_elim id apiKey xs trail 0 (c, s) h
      have hymem : y ∈ xs := List.get?_mem hy
      obtain ⟨hmc, hcsub, rel, hs2, hpv⟩ := ih y hymem (trail ++ [Nat.repr (0 + j)]) c s hwy
      refine ⟨hmc, ?_, Nat.repr j :: rel, ?_, ?_⟩
      · exact List.mem_cons.2 (Or.inr (mem_subvaluesList.2 ⟨y, hymem, hcsub⟩))
      · rw [hs2, Nat.zero_add, List.append_assoc]
        rfl
      · exact PathVia.intoArr hy hpv
  | hObj kvs ih =>
    intro trail c s h
    rw [walk] at h
    by_cases hm : walkMatch id apiKey (vObj kvs) = true
    · rw [if_pos hm] at h
      obtain ⟨rfl, rfl⟩ : vObj kvs = c ∧ trail = s := by
        have := Option.some.inj h
        exact ⟨congrArg Prod.fst this, congrArg Prod.snd this⟩
      exact ⟨hm, subvalues_self _, [], by simp, PathVia.here _⟩
    · rw [if_neg hm] at h
      obtain ⟨k, v, hkv, hwv⟩ := walkObj_elim id apiKey kvs trail (c, s) h
      obtain ⟨hmc, hcsub, rel, hs2, hpv⟩ := ih (k, v) hkv (trail ++ [k]) c s hwv
      refine ⟨hmc, ?_, k :: rel, ?_, ?_⟩
      · exact List.mem_cons.2 (Or.inr (mem_subvaluesObj.2 ⟨(k, v), hkv, hcsub⟩))
      · rw [hs2, List.append_assoc]
        rfl
      · exact PathVia.intoObj hkv hpv
  | _ =>
    intro trail c s h
    exact Option.noConfusion h

theorem walk_none (id : String) (apiKey : Option String) :
    ∀ (v : JVal) (trail : List String),
      walk id apiKey v trail = none →
      ∀ n ∈ subvalues v, walkMatch id apiKey n = false := by
  intro v
  induction v using JVal.myInd with
  | hArr xs ih =>
    intro trail h n hn
    rw [walk] at h
    by_cases hm : walkMatch id apiKey (vArr xs) = true
    · rw [if_pos hm] at h
      exact Option.noConfusion h
    · rw [if_neg hm] at h
      rcases List.mem_cons.1 hn with rfl | hn
      · exact Bool.not_eq_true _ ▸ Bool.eq_false_iff.2 hm
      · obtain ⟨x, hx, hnx⟩ := mem_subvaluesList.1 hn
        obtain ⟨t, hwt⟩ := walkArr_none_elim id apiKey xs trail 0 h x hx
        exact ih x hx t hwt n hnx
  | hObj kvs ih =>
    intro trail h n hn
    rw [walk] at h
    by_cases hm : walkMatch id apiKey (vObj kvs) = true
    · rw [if_pos hm] at h
      exact Option.noConfusion h
    · rw [if_neg hm] at h
      rcases List.mem_cons.1 hn with rfl | hn
      · exact Bool.not_eq_true _ ▸ Bool.eq_false_iff.2 hm
      · obtain ⟨kv, hkv, hnkv⟩ := mem_subvaluesObj.1 hn
        obtain ⟨t, hwt⟩ := walkObj_none_elim id apiKey kvs trail h kv hkv
        exact ih kv hkv t hwt n hnkv
  | hNull =>
    intro trail _ n hn
    rcases List.mem_singleton.1 hn with rfl
    exact walkMatch_scalar id apiKey _ (fun _ => by simp) (fun _ => by simp)
  | hUndef =>
    intro trail _ n hn
    rcases List.mem_singleton.1 hn with rfl
    exact walkMatch_scalar id apiKey _ (fun _ => by simp) (fun _ => by simp)
  | hNaN =>
    intro trail _ n hn
    rcases List.mem_singleton.1 hn with rfl
    exact walkMatch_scalar id apiKey _ (fun _ => by simp) (fun _ => by simp)
  | hBool b =>
    intro trail _ n hn
    rcases List.mem_singleton.1 hn with rfl
    exact walkMatch_scalar id apiKey _ (fun _ => by simp) (fun _ => by simp)
  | hNum q =>
    intro trail _ n hn
    rcases List.mem_singleton.1 hn with rfl
    exact walkMatch_scalar id apiKey _ (fun _ => by simp) (fun _ => by simp)
  | hStr s =>
    intro trail _ n hn
    rcases List.mem_singleton.1 hn with rfl
    exact walkMatch_scalar id apiKey _ (fun _ => by simp) (fun _ => by simp)

theorem countP_eq_one_unique {α : Type} (p : α → Bool) (l : List α) (h : l.countP p = 1)
    {a b : α} (ha : a ∈ l) (hpa : p a = true) (hb : b ∈ l) (hpb : p b = true) : a = b := by
  rw [List.countP_eq_length_filter] at h
  obtain ⟨x, hx⟩ := List.length_eq_one.1 h
  have h1 : a ∈ l.filter p := List.mem_filter.2 ⟨ha, hpa⟩
  have h2 : b ∈ l.filter p := List.mem_filter.2 ⟨hb, hpb⟩
  rw [hx, List.mem_singleton] at h1 h2
  rw [h1, h2]

theorem findBlockContainer_mem (ctx : Ctx) (c : JVal) (p : String)
    (h : findBlockContainerWithCurrentField ctx = some (c, p)) :
    c ∈ subvalues ctx.formValues := by
  rw [findBlockContainerWithCurrentField] at h
  by_cases hf : (truthy (getAtPath ctx.formValues (parentPath ctx.fieldPath)) &&
      (hasOwnProp (getAtPath ctx.formValues (parentPath ctx.fieldPath)) (currentFieldInfo ctx).1 ||
       hasOwnProp (getAtPath ctx.formValues (parentPath ctx.fieldPath))
         (((currentFieldInfo ctx).2).getD ""))) = true
  · rw [if_pos hf] at h
    obtain rfl : getAtPath ctx.formValues (parentPath ctx.fieldPath) = c :=
      congrArg Prod.fst (Option.some.inj h)
    rcases getAtPathSegs_mem (splitPath (parentPath ctx.fieldPath)) ctx.formValues with hu | hm
    · rw [getAtPath] at hf
      rw [hu] at hf
      simp [truthy] at hf
    · exact hm
  · rw [if_neg hf] at h
    cases hw : walk (currentFieldInfo ctx).1 (currentFieldInfo ctx).2 ctx.formValues [] with
    | none => rw [hw] at h; exact Option.noConfusion h
    | some r =>
      rw [hw] at h
      obtain rfl : r.1 = c := congrArg Prod.fst (Option.some.inj h)
      exact (walk_sound _ _ ctx.formValues [] r.1 r.2 (by rw [hw])).2.1

/-! ### C1: direct-sibling resolution -/

/-- C1: whenever the editing field and the looked-up target field are direct
children of the container node at the editing field's parent path — the
container owning the editing field's identifier or machine-name key and at
least one of the target's candidate keys — `resolveSiblingPathInBlock`
returns the container path extended by a key matching the target (its
identifier or machine name, whichever the container owns), with the locale
suffix exactly when the target is localized and a locale is active, and the
identifier-keyed entry is chosen whenever the container owns it. -/
theorem resolveSiblingPathInBlock_direct_children (ctx : Ctx) (target : String) (d : FieldDef)
    (hdef : findFieldDef ctx target = some d)
    (hC : truthy (getAtPath ctx.formValues (parentPath ctx.fieldPath)) = true)
    (hEdit :
      hasOwnProp (getAtPath ctx.formValues (parentPath ctx.fieldPath)) ctx.field.id = true ∨
      hasOwnProp (getAtPath ctx.formValues (parentPath ctx.fieldPath))
        ((fdApiKey ctx.field).getD "") = true)
    (hTgt : ∃ k ∈ keyCandidates d,
      hasOwnProp (getAtPath ctx.formValues (parentPath ctx.fieldPath)) k = true) :
    ∃ k ∈ keyCandidates d,
      hasOwnProp (getAtPath ctx.formValues (parentPath ctx.fieldPath)) k = true ∧
      resolveSiblingPathInBlock ctx target =
        some (parentPath ctx.fieldPath ++ "." ++ k ++ locSuffix (isFieldLocalized d) ctx.locale) ∧
      (d.id ≠ "" →
        hasOwnProp (getAtPath ctx.formValues (parentPath ctx.fieldPath)) d.id = true →
        k = d.id) := by
  have hcond : (truthy (getAtPath ctx.formValues (parentPath ctx.fieldPath)) &&
      (hasOwnProp (getAtPath ctx.formValues (parentPath ctx.fieldPath))
          (currentFieldInfo ctx).1 ||
       hasOwnProp (getAtPath ctx.formValues (parentPath ctx.fieldPath))
          (((currentFieldInfo ctx).2).getD ""))) = true := by
    rcases hEdit with h | h <;> simp [currentFieldInfo, hC, h]
  have hfb : findBlockContainerWithCurrentField ctx =
      some (getAtPath ctx.formValues (parentPath ctx.fieldPath), parentPath ctx.fieldPath) := by
    rw [findBlockContainerWithCurrentField, if_pos hcond]
  cases hfind : (keyCandidates d).find?
      (fun k => hasOwnProp (getAtPath ctx.formValues (parentPath ctx.fieldPath)) k) with
  | none =>
    obtain ⟨k, hk, hko⟩ := hTgt
    have := List.find?_eq_none.1 hfind k hk
    rw [hko] at this
    exact absurd rfl this
  | some k0 =>
    have hk0p : hasOwnProp (getAtPath ctx.formValues (parentPath ctx.fieldPath)) k0 = true :=
      List.find?_some hfind
    have hk0m : k0 ∈ keyCandidates d := List.mem_of_find?_eq_some hfind
    refine ⟨k0, hk0m, hk0p, ?_, ?_⟩
    · rw [resolveSiblingPathInBlock, hfb, hdef]
      simp only [hfind]
    · intro hid hCid
      have hkc : keyCandidates d = d.id ::
          (match fdApiKey d with
           | some a => if a ≠ "" then [a] else []
           | none => []) := by
        rw [keyCandidates, if_pos hid]
        rfl
      rw [hkc, List.find?_cons_of_pos _ hCid] at hfind
      exact (Option.some.inj hfind).symm

/-- Field descriptors and context for the identifier-keyed scenario of the
specification: block `block1` stores field 55 (machine name `sourcefile`)
and field 56 (machine name `data`, the edited field) by identifier. -/
def fdC1source : FieldDef := ⟨"55", some "sourcefile", none, none, none⟩

def fdC1data : FieldDef := ⟨"56", some "data", none, none, none⟩

def ctxC1 : Ctx :=
  { formValues := vObj [("block1",
      vObj [("55", vObj [("upload_id", vStr "9")]), ("56", vStr "")])],
    fieldPath := "block1.56", locale := none, field := fdC1data,
    fields := [("55", fdC1source), ("56", fdC1data)] }

/-- C1 witness: in the identifier-keyed scenario the resolver returns the
path `block1.55`. -/
theorem resolveSiblingPathInBlock_direct_children_example :
    (∃ k ∈ keyCandidates fdC1source,
      hasOwnProp (getAtPath ctxC1.formValues (parentPath ctxC1.fieldPath)) k = true ∧
      resolveSiblingPathInBlock ctxC1 "sourcefile" =
        some (parentPath ctxC1.fieldPath ++ "." ++ k ++
          locSuffix (isFieldLocalized fdC1source) ctxC1.locale) ∧
      (fdC1source.id ≠ "" →
        hasOwnProp (getAtPath ctxC1.formValues (parentPath ctxC1.fieldPath)) fdC1source.id = true →
        k = fdC1source.id)) ∧
    resolveSiblingPathInBlock ctxC1 "sourcefile" = some "block1.55" :=
  ⟨resolveSiblingPathInBlock_direct_children ctxC1 "sourcefile" fdC1source
      (by decide) (by decide) (Or.inl (by decide)) ⟨"55", by decide, by decide⟩,
   by decide⟩

/-! ### C2: fallback resolution -/

def fdC2source : FieldDef := ⟨"55", some "sourcefile", none, none, none⟩

def fdC2data : FieldDef := ⟨"56", some "data", none, none, none⟩

/-- A tree in which the immediate parent (`blockA`) of the editing field
does not contain the target field, while exactly one other node (`blockB`)
owns both the editing field's key and the target field's key. -/
def ctxC2bad : Ctx :=
  { formValues := vObj [("blockA", vObj [("56", vStr "x")]),
      ("blockB", vObj [("56", vStr "y"), ("55", vObj [("upload_id", vStr "9")])])],
    fieldPath := "blockA.56", locale := none, field := fdC2data,
    fields := [("55", fdC2source), ("56", fdC2data)] }

/-- C2 counterexample: the claim's hypotheses hold — the immediate parent
owns neither candidate key of the target, and exactly one other node owns
both the editing and the target key — yet resolution returns `none` rather
than a path into that node: the fast path already accepted the immediate
parent because it owns the editing field's key, so the deep fallback never
runs. -/
theorem resolveSiblingPathInBlock_fallback_claim_fails :
    hasOwnProp (getAtPath ctxC2bad.formValues (parentPath ctxC2bad.fieldPath)) "55" = false ∧
    hasOwnProp (getAtPath ctxC2bad.formValues (parentPath ctxC2bad.fieldPath)) "sourcefile"
      = false ∧
    (subvalues ctxC2bad.formValues).countP
      (fun nd => hasOwnProp nd "56" && hasOwnProp nd "55") = 1 ∧
    resolveSiblingPathInBlock ctxC2bad "sourcefile" = none := by
  refine ⟨rfl, rfl, by decide, by decide⟩

/-- C2 (amended): when the fast path fails — the node at the editing field's
parent path is not truthy or owns neither the editing field's identifier nor
its machine name — and exactly one node of the entire tree matches the deep
walk's ownership test for the editing field, and that node also owns a
candidate key of the target, then resolution reaches that node by the
depth-first fallback (arrays by index, objects by key) and returns the
node's path extended by the matching target key and locale suffix. -/
theorem resolveSiblingPathInBlock_fallback (ctx : Ctx) (target : String) (d : FieldDef)
    (n : JVal)
    (hdef : findFieldDef ctx target = some d)
    (hfast : (truthy (getAtPath ctx.formValues (parentPath ctx.fieldPath)) &&
        (hasOwnProp (getAtPath ctx.formValues (parentPath ctx.fieldPath)) ctx.field.id ||
         hasOwnProp (getAtPath ctx.formValues (parentPath ctx.fieldPath))
           ((fdApiKey ctx.field).getD ""))) = false)
    (hmem : n ∈ subvalues ctx.formValues)
    (hmatch : walkMatch ctx.field.id (fdApiKey ctx.field) n = true)
    (huniq : (subvalues ctx.formValues).countP
      (walkMatch ctx.field.id (fdApiKey ctx.field)) = 1)
    (hTgt : ∃ k ∈ keyCandidates d, hasOwnProp n k = true) :
    ∃ segs, PathVia ctx.formValues segs n ∧
      ∃ k ∈ keyCandidates d, hasOwnProp n k = true ∧
        resolveSiblingPathInBlock ctx target =
          some (String.intercalate "." segs ++ "." ++ k ++
            locSuffix (isFieldLocalized d) ctx.locale) := by
  cases hw : walk (currentFieldInfo ctx).1 (currentFieldInfo ctx).2 ctx.formValues [] with
  | none =>
    have hno : walkMatch ctx.field.id (fdApiKey ctx.field) n = false :=
      walk_none _ _ ctx.formValues [] hw n hmem
    rw [hno] at hmatch
    exact Bool.noConfusion hmatch
  | some r =>
    obtain ⟨c, tr⟩ := r
    obtain ⟨hmc, hcm, rel, hs2, hpv⟩ := walk_sound _ _ ctx.formValues [] c tr hw
    have hmc' : walkMatch ctx.field.id (fdApiKey ctx.field) c = true := hmc
    have htr : tr = rel := by simpa using hs2
    have hcn : c = n := countP_eq_one_unique _ _ huniq hcm hmc' hmem hmatch
    subst hcn
    have hcondF : (truthy (getAtPath ctx.formValues (parentPath ctx.fieldPath)) &&
        (hasOwnProp (getAtPath ctx.formValues (parentPath ctx.fieldPath))
            (currentFieldInfo ctx).1 ||
         hasOwnProp (getAtPath ctx.formValues (parentPath ctx.fieldPath))
            (((currentFieldInfo ctx).2).getD ""))) = false := hfast
    have hfb : findBlockContainerWithCurrentField ctx =
        some (c, String.intercalate "." tr) := by
      rw [findBlockContainerWithCurrentField, if_neg (by rw [hcondF]; simp), hw]
      rfl
    cases hfind : (keyCandidates d).find? (fun k => hasOwnProp c k) with
    | none =>
      obtain ⟨k, hk, hko⟩ := hTgt
      have := List.find?_eq_none.1 hfind k hk
      rw [hko] at this
      exact absurd rfl this
    | some k0 =>
      have hk0p : hasOwnProp c k0 = true := List.find?_some hfind
      have hk0m : k0 ∈ keyCandidates d := List.mem_of_find?_eq_some hfind
      refine ⟨tr, ?_, k0, hk0m, hk0p, ?_⟩
      · rw [htr]
        exact hpv
      · rw [resolveSiblingPathInBlock, hfb, hdef]
        simp only [hfind]

/-- A tree with an extra nesting level: the editing field's recorded parent
path `zzz` resolves to nothing, and the single block inside the `blocks`
collection owns both the editing field's id and the target's id. -/
def ctxC2w : Ctx :=
  { formValues := vObj [("blocks",
      vArr [vObj [("56", vStr ""), ("55", vObj [("upload_id", vStr "9")])]])],
    fieldPath := "zzz.56", locale := none, field := fdC2data,
    fields := [("55", fdC2source), ("56", fdC2data)] }

/-- C2 witness: with the fast path failing and a unique owner of the editing
key, the fallback resolves `blocks.0.55`. -/
theorem resolveSiblingPathInBlock_fallback_example :
    (∃ segs, PathVia ctxC2w.formValues segs
        (vObj [("56", vStr ""), ("55", vObj [("upload_id", vStr "9")])]) ∧
      ∃ k ∈ keyCandidates fdC2source,
        hasOwnProp (vObj [("56", vStr ""), ("55", vObj [("upload_id", vStr "9")])]) k = true ∧
        resolveSiblingPathInBlock ctxC2w "sourcefile" =
          some (String.intercalate "." segs ++ "." ++ k ++
            locSuffix (isFieldLocalized fdC2source) ctxC2w.locale)) ∧
    resolveSiblingPathInBlock ctxC2w "sourcefile" = some "blocks.0.55" :=
  ⟨resolveSiblingPathInBlock_fallback ctxC2w "sourcefile" fdC2source
      (vObj [("56", vStr ""), ("55", vObj [("upload_id", vStr "9")])])
      (by decide) (by decide) (by decide) (by decide) (by decide)
      ⟨"55", by decide, by decide⟩,
   by decide⟩

/-! ### C3: resolution failure is a plain null -/

/-- The candidate keys the resolver can try for a target machine name: the
matched descriptor's identifier and machine name, or the raw machine name
itself when no descriptor matches. -/
def targetKeyCandidates (ctx : Ctx) (target : String) : List String :=
  match findFieldDef ctx target with
  | some d => keyCandidates d
  | none => [target]

/-- C3: whenever no node anywhere in the record value tree owns any
candidate key of the target field, both sibling resolvers return `null`;
being total functions into `Option`, they cannot raise. -/
theorem siblingResolution_none_of_unowned (ctx : Ctx) (target : String)
    (h : ∀ nd ∈ subvalues ctx.formValues, ∀ k ∈ targetKeyCandidates ctx target,
      hasOwnProp nd k = false) :
    resolveSiblingPathInBlock ctx target = none ∧
    getSiblingFileFromBlock ctx target = none := by
  cases hfb : findBlockContainerWithCurrentField ctx with
  | none =>
    constructor
    · rw [resolveSiblingPathInBlock, hfb]
    · rw [getSiblingFileFromBlock, hfb]
  | some cp =>
    obtain ⟨c, p⟩ := cp
    have hcm : c ∈ subvalues ctx.formValues := findBlockContainer_mem ctx c p hfb
    have hfind : (targetKeyCandidates ctx target).find? (fun k => hasOwnProp c k) = none :=
      List.find?_eq_none.2 (fun k hk => by rw [h c hcm k hk]; simp)
    constructor
    · rw [resolveSiblingPathInBlock]
      cases hd : findFieldDef ctx target with
      | none => simp only [hfb, hd]
      | some d =>
        have hcand : keyCandidates d = targetKeyCandidates ctx target := by
          rw [targetKeyCandidates, hd]
        simp only [hfb, hd, hcand, hfind]
    · rw [getSiblingFileFromBlock]
      cases hd : findFieldDef ctx target with
      | none =>
        have hcand : [target] = targetKeyCandidates ctx target := by
          rw [targetKeyCandidates, hd]
        simp only [hfb, hd, hcand, hfind]
      | some d =>
        have hcand : keyCandidates d = targetKeyCandidates ctx target := by
          rw [targetKeyCandidates, hd]
        simp only [hfb, hd, hcand, hfind]

def fdC3 : FieldDef := ⟨"56", some "data", none, none, none⟩

def ctxC3 : Ctx :=
  { formValues := vObj [("block1", vObj [("56", vStr "x")])],
    fieldPath := "block1.56", locale := none, field := fdC3,
    fields := [("56", fdC3)] }

/-- C3 witness: a tree owning no `sourcefile` key anywhere resolves to
`none` in both resolvers. -/
theorem siblingResolution_none_of_unowned_example :
    resolveSiblingPathInBlock ctxC3 "sourcefile" = none ∧
    getSiblingFileFromBlock ctxC3 "sourcefile" = none :=
  siblingResolution_none_of_unowned ctxC3 "sourcefile" (by decide)

/-! ### C9: write discipline of the import action -/

/-- The value the import action stores into the edited field on success, as
a function of the run's inputs. -/
def payloadValueOf (e : ImportEnv) : JVal :=
  match e.metaOutcome, e.parseOutcome with
  | Except.ok (some meta), Except.ok grid =>
    encodePayloadValue e.fieldIsJson (payloadFor e (normalizeAoA (aoaFilterBlank grid)) meta)
  | _, _ => vNull

theorem setSiblingTrace_filter_isSetField (ctx : Ctx) (a : String) (v : JVal) :
    (setSiblingTrace ctx a v).filter isSetField = setSiblingTrace ctx a v := by
  rw [setSiblingTrace]
  cases hf : (ctx.fields.map Prod.snd).find? (fun f => fdApiKey f == some a) with
  | none => rfl
  | some d =>
    by_cases hid : d.id = ""
    · simp only [if_pos hid]
      rfl
    · simp only [if_neg hid]
      rfl

theorem columnsMetaWrites_filter_isSetField (e : ImportEnv) (norm : NormResult) :
    (columnsMetaWrites e norm).filter isSetField = columnsMetaWrites e norm := by
  rw [columnsMetaWrites]
  cases e.columnsMetaApiKey with
  | none => rfl
  | some ck =>
    by_cases h : ck ≠ ""
    · simp only [if_pos h, setSiblingTrace_filter_isSetField]
    · simp only [if_neg h]
      rfl

theorem rowCountWrites_filter_isSetField (e : ImportEnv) (norm : NormResult) :
    (rowCountWrites e norm).filter isSetField = rowCountWrites e norm := by
  rw [rowCountWrites]
  cases e.rowCountApiKey with
  | none => rfl
  | some rk =>
    by_cases h : rk ≠ ""
    · simp only [if_pos h, setSiblingTrace_filter_isSetField]
    · simp only [if_neg h]
      rfl

/-- C9 (amended): the import action never mutates field state before every
pre-write stage (sibling-file resolution, metadata lookup, MIME screen,
HTTP fetch, spreadsheet parse) has succeeded — a failed run performs no
`setFieldValue` at all, leaving the previously committed value untouched —
and a successful run first performs the fetch and parse, then the
null-write / yield / value-write of `writePayload` on the edited field, and
after it only the optional sibling meta-field writes; when those sibling
writes do not target the edited field (they live at sibling ids), the two-
step write is the only mutation of the edited field. -/
theorem importFromBlock_write_discipline (e : ImportEnv) :
    (importSucceeds e = false → (importTrace e).filter isSetField = []) ∧
    (importSucceeds e = true →
      ∃ pre post,
        importTrace e = pre ++
          [Effect.setFieldValue e.ctx.fieldPath vNull, Effect.yieldControl,
           Effect.setFieldValue e.ctx.fieldPath (payloadValueOf e)] ++ post ∧
        pre.filter isSetField = [] ∧
        Effect.parseSheet ∈ pre ∧ (∃ u, Effect.httpFetch u ∈ pre) ∧
        post.filter isSetField = siblingMetaEffects e ∧
        ((siblingMetaEffects e).filter (isSetOn e.ctx.fieldPath) = [] →
          (importTrace e).filter (isSetOn e.ctx.fieldPath) =
            [Effect.setFieldValue e.ctx.fieldPath vNull,
             Effect.setFieldValue e.ctx.fieldPath (payloadValueOf e)])) := by
  cases hsf : getSiblingFileFromBlockMain e.ctx e.sourceApiKey with
  | none =>
    refine ⟨fun _ => ?_, fun hok => ?_⟩
    · simp only [importTrace, hsf]
      rfl
    · rw [importSucceeds, hsf] at hok
      simp at hok
  | some fv =>
    cases hmo : e.metaOutcome with
    | error msg =>
      refine ⟨fun _ => ?_, fun hok => ?_⟩
      · simp only [importTrace, hsf, hmo]
        rfl
      · rw [importSucceeds, hmo] at hok
        simp [metaUrlOk] at hok
    | ok mo =>
      cases mo with
      | none =>
        refine ⟨fun _ => ?_, fun hok => ?_⟩
        · simp only [importTrace, hsf, hmo]
          rfl
        · rw [importSucceeds, hmo] at hok
          simp [metaUrlOk] at hok
      | some meta =>
        cases hurl : meta.url with
        | none =>
          refine ⟨fun _ => ?_, fun hok => ?_⟩
          · simp only [importTrace, hsf, hmo, hurl]
            rfl
          · rw [importSucceeds, hmo] at hok
            simp [metaUrlOk, hurl] at hok
        | some url =>
          by_cases hu0 : url = ""
          · refine ⟨fun _ => ?_, fun hok => ?_⟩
            · simp only [importTrace, hsf, hmo, hurl, if_pos hu0]
              rfl
            · rw [importSucceeds, hmo] at hok
              simp [metaUrlOk, hurl, hu0] at hok
          · cases him : metaIsImage meta with
            | true =>
              refine ⟨fun _ => ?_, fun hok => ?_⟩
              · simp only [importTrace, hsf, hmo, hurl, if_neg hu0, him, if_pos rfl]
                rfl
              · rw [importSucceeds, hmo] at hok
                simp [him] at hok
            | false =>
              cases hfk : e.fetchOk with
              | false =>
                refine ⟨fun _ => ?_, fun hok => ?_⟩
                · simp only [importTrace, hsf, hmo, hurl, if_neg hu0, him, hfk]
                  rfl
                · rw [importSucceeds, hfk] at hok
                  simp at hok
              | true =>
                cases hpo : e.parseOutcome with
                | error msg =>
                  refine ⟨fun _ => ?_, fun hok => ?_⟩
                  · simp only [importTrace, hsf, hmo, hurl, if_neg hu0, him, hfk, hpo]
                    rfl
                  · rw [importSucceeds, hpo] at hok
                    simp at hok
                | ok grid =>
                  have htr : importTrace e =
                      [Effect.fetchMetaCall, Effect.httpFetch (bustUrl url e.nonce),
                       Effect.parseSheet] ++
                      [Effect.setFieldValue e.ctx.fieldPath vNull, Effect.yieldControl,
                       Effect.setFieldValue e.ctx.fieldPath (payloadValueOf e)] ++
                      (columnsMetaWrites e (normalizeAoA (aoaFilterBlank grid)) ++
                       rowCountWrites e (normalizeAoA (aoaFilterBlank grid)) ++
                       [Effect.saveItem, Effect.showNotice "Imported"]) := by
                    have hpv : payloadValueOf e =
                        encodePayloadValue e.fieldIsJson
                          (payloadFor e (normalizeAoA (aoaFilterBlank grid)) meta) := by
                      rw [payloadValueOf, hmo, hpo]
                    simp only [importTrace, hsf, hmo, hurl, if_neg hu0, him, hfk, hpo,
                      writePayload, hpv, List.append_assoc, List.cons_append, List.nil_append]
                    rfl
                  have hsib : siblingMetaEffects e =
                      columnsMetaWrites e (normalizeAoA (aoaFilterBlank grid)) ++
                      rowCountWrites e (normalizeAoA (aoaFilterBlank grid)) := by
                    rw [siblingMetaEffects, hpo]
                  refine ⟨fun hfail => ?_, fun _ => ?_⟩
                  · simp [importSucceeds, metaUrlOk, hsf, hmo, hurl, hu0, him, hfk, hpo]
                      at hfail
                  · refine ⟨[Effect.fetchMetaCall, Effect.httpFetch (bustUrl url e.nonce),
                      Effect.parseSheet],
                      columnsMetaWrites e (normalizeAoA (aoaFilterBlank grid)) ++
                      rowCountWrites e (normalizeAoA (aoaFilterBlank grid)) ++
                      [Effect.saveItem, Effect.showNotice "Imported"], ?_, rfl, ?_, ?_, ?_, ?_⟩
                    · rw [htr]
                    · simp
                    · exact ⟨bustUrl url e.nonce, by simp⟩
                    · rw [hsib]
                      simp only [List.filter_append, columnsMetaWrites_filter_isSetField,
                        rowCountWrites_filter_isSetField]
                      simp [isSetField]
                    · intro hno
                      rw [hsib, List.filter_append] at hno
                      have h2 := List.append_eq_nil.1 hno
                      rw [htr]
                      simp only [List.filter_append, h2.1, h2.2]
                      simp [isSetOn, isSetField]

def fdC9source : FieldDef := ⟨"55", some "sourcefile", none, none, none⟩

def fdC9data : FieldDef := ⟨"56", some "data", none, none, none⟩

def fdC9cols : FieldDef := ⟨"57", some "colsmeta", none, none, none⟩

def ctxC9 : Ctx :=
  { formValues := vObj [("block1",
      vObj [("55", vArr [vObj [("upload_id", vStr "9")]]), ("56", vStr "")])],
    fieldPath := "block1.56", locale := none, field := fdC9data,
    fields := [("55", fdC9source), ("56", fdC9data), ("57", fdC9cols)] }

/-- A fully successful import run: the sibling file resolves, the metadata
call returns a CSV URL, the fetch succeeds and the parse yields one row. -/
def envC9ok : ImportEnv :=
  { ctx := ctxC9, sourceApiKey := "sourcefile", columnsMetaApiKey := none,
    rowCountApiKey := none, fieldIsJson := true,
    metaOutcome := Except.ok (some ⟨some "https://host/file.csv", some "text/csv",
      some "file.csv"⟩),
    fetchOk := true, fetchError := "", parseOutcome := Except.ok [[vStr "a", vStr "b"]],
    nonce := 0, importedAt := "t0" }

/-- The same run with the optional columns-meta parameter configured. -/
def envC9cx : ImportEnv :=
  { envC9ok with columnsMetaApiKey := some "colsmeta" }

/-- C9 counterexample: with the optional columns-meta parameter configured,
a successful import performs a `setFieldValue` on the sibling path
`block1.57` in addition to the two-step write on the edited field
`block1.56`, so the two-step write is not the only field-state mutation of
the import action. -/
theorem importFromBlock_sole_write_claim_fails :
    importSucceeds envC9cx = true ∧
    ¬ (∀ ef ∈ importTrace envC9cx, isSetField ef = true →
        isSetOn envC9cx.ctx.fieldPath ef = true) := by
  constructor
  · decide
  · decide

/-- C9 witness: the successful run without optional sibling parameters
instantiates the write discipline, its two field writes being exactly the
null-then-value pair on the edited field. -/
theorem importFromBlock_write_discipline_example :
    importSucceeds envC9ok = true ∧
    (∃ pre post,
      importTrace envC9ok = pre ++
        [Effect.setFieldValue envC9ok.ctx.fieldPath vNull, Effect.yieldControl,
         Effect.setFieldValue envC9ok.ctx.fieldPath (payloadValueOf envC9ok)] ++ post ∧
      pre.filter isSetField = [] ∧
      Effect.parseSheet ∈ pre ∧ (∃ u, Effect.httpFetch u ∈ pre) ∧
      post.filter isSetField = siblingMetaEffects envC9ok ∧
      ((siblingMetaEffects envC9ok).filter (isSetOn envC9ok.ctx.fieldPath) = [] →
        (importTrace envC9ok).filter (isSetOn envC9ok.ctx.fieldPath) =
          [Effect.setFieldValue envC9ok.ctx.fieldPath vNull,
           Effect.setFieldValue envC9ok.ctx.fieldPath (payloadValueOf envC9ok)])) :=
  ⟨by decide, (importFromBlock_write_discipline envC9ok).2 (by decide)⟩
